import Mathlib

/-!
Verification development for the ordinal / CNS indexing core of the node
repository (`csnode/src/ordinalindex.cpp`, `csnode/src/ordinal_json_parser.cpp`).

Strings from the C++ source (`std::string`, byte sequences) are embedded as
`List Char`; machine integers `int64_t` are embedded as `Int` (with the
explicit `std::stoll` range check where the source performs one); the LMDB
key-value store together with its JSON / little-endian value encodings is
embedded as typed finite maps (association lists), one per key prefix, which
is justified by the serialize/parse round-trip proved below for the flat
string maps actually stored.  Fallible C++ paths (`std::optional`, caught
exceptions) are embedded as `Option`.
-/

namespace OrdinalSpec

/-- Byte-string model of `std::string`. -/
abbrev Str := List Char

/-- Opaque model of `csdb::Address` (compared only for equality in the source). -/
abbrev Addr := Nat

/-- Characters stripped by `OrdinalJsonParser::trim` (`" \t\n\r"`). -/
def isTrimWs (c : Char) : Bool :=
  c = ' ' || c = '\t' || c = '\n' || c = '\r'

/-- The `{` character (written via its code point). -/
def lbrace : Char := Char.ofNat 123

/-- The `}` character (written via its code point). -/
def rbrace : Char := Char.ofNat 125

namespace OrdinalJsonParser

/-- Flat string object of `OrdinalJsonParser` (`std::map<std::string,std::string>`),
embedded as the sorted, duplicate-free association list that is the contents of
the `std::map` in key order. -/
abbrev JsonObject := List (Str × Str)

/-- Lexicographic byte comparison, the `operator<` of `std::string` used by
`std::map<std::string, std::string>`. -/
def ltChars : Str → Str → Bool
  | [], [] => false
  | [], _ :: _ => true
  | _ :: _, [] => false
  | a :: as, b :: bs => if a < b then true else if b < a then false else ltChars as bs

/-- `std::map::operator[]` followed by assignment: ordered insert replacing an
equal key in place. -/
def mapInsert (m : JsonObject) (k v : Str) : JsonObject :=
  match m with
  | [] => [(k, v)]
  | (k', v') :: rest =>
    if ltChars k k' then (k, v) :: (k', v') :: rest
    else if ltChars k' k then (k', v') :: mapInsert rest k v
    else (k, v) :: rest

/-- `std::map::find` on the association list. -/
def jsonFind (m : JsonObject) (k : Str) : Option Str :=
  match m with
  | [] => none
  | (k', v') :: rest => if k' = k then some v' else jsonFind rest k

/-- `json.count(key)` used as a boolean in the source. -/
def hasKey (m : JsonObject) (k : Str) : Bool :=
  (jsonFind m k).isSome

/-- `OrdinalJsonParser::trim`: strip the characters of `" \t\n\r"` from both
ends (`find_first_not_of` / `find_last_not_of`). -/
def trimChars (s : Str) : Str :=
  ((s.dropWhile isTrimWs).reverse.dropWhile isTrimWs).reverse

/-- `OrdinalJsonParser::unquote`: strip one pair of surrounding double quotes
when the string has length at least two and starts and ends with `"`. -/
def unquote (s : Str) : Str :=
  if 2 ≤ s.length ∧ s.head? = some '"' ∧ s.getLast? = some '"' then
    (s.drop 1).dropLast
  else s

/-- `std::getline(ss, item, delim)` loop: emits the segment before every
delimiter, and the final segment only when it is non-empty. -/
def getlineSplitAux (delim : Char) : Str → Str → List Str
  | [], acc => if acc.isEmpty then [] else [acc.reverse]
  | c :: rest, acc =>
    if c = delim then acc.reverse :: getlineSplitAux delim rest []
    else getlineSplitAux delim rest (c :: acc)

/-- Split a string the way the `std::getline` loop of the source does. -/
def getlineSplit (delim : Char) (s : Str) : List Str :=
  getlineSplitAux delim s []

/-- `item.find(delim)` followed by the two `substr` calls: split at the first
occurrence of `delim`, `none` when absent. -/
def splitFirst (delim : Char) : Str → Option (Str × Str)
  | [] => none
  | c :: rest =>
    if c = delim then some ([], rest)
    else
      match splitFirst delim rest with
      | some (a, b) => some (c :: a, b)
      | none => none

/-- Fold step of the parsing loop: split an item at the first `:`, trim and
unquote both sides, and store the pair when the key is non-empty. -/
def parseItem (m : JsonObject) (item : Str) : JsonObject :=
  match splitFirst ':' item with
  | none => m
  | some (k0, v0) =>
    let k := unquote (trimChars k0)
    let v := unquote (trimChars v0)
    if k = [] then m else mapInsert m k v

/-- `OrdinalJsonParser::parse`: tolerant, non-recursive parser.  Trims the
input, requires it to start with `{` and end with `}`, strips the outer
braces, splits on `,`, then on the first `:` of each item. -/
def parse (json : Str) : Option JsonObject :=
  let trimmed := trimChars json
  if trimmed ≠ [] ∧ trimmed.head? = some lbrace ∧ trimmed.getLast? = some rbrace then
    let content := (trimmed.drop 1).dropLast
    some ((getlineSplit ',' content).foldl parseItem [])
  else none

/-- `OrdinalJsonParser::getString` with its default argument `""`. -/
def getString (m : JsonObject) (k : Str) : Str :=
  match jsonFind m k with
  | some v => v
  | none => []

/-- Digit accumulation used to model `std::stoll`. -/
def digitsVal : List Char → Nat → Nat
  | [], acc => acc
  | c :: rest, acc => digitsVal rest (acc * 10 + (c.toNat - '0'.toNat))

/-- Characters accepted by `isspace` in the C locale, skipped by `std::stoll`. -/
def isSpaceC (c : Char) : Bool :=
  c = ' ' || c = '\t' || c = '\n' || c = Char.ofNat 11 || c = Char.ofNat 12 || c = '\r'

/-- `std::stoll` on a decimal string: skip leading spaces, optional sign, then
a non-empty run of digits; `none` models the thrown exception (no digits or a
value outside the `int64_t` range). -/
def stollOpt (s : Str) : Option Int :=
  let s1 := s.dropWhile isSpaceC
  let signed : Bool × Str :=
    match s1 with
    | '-' :: rest => (true, rest)
    | '+' :: rest => (false, rest)
    | rest => (false, rest)
  let digits := signed.2.takeWhile fun c => '0' ≤ c ∧ c ≤ '9'
  if digits = [] then none
  else
    let n : Int := Int.ofNat (digitsVal digits 0)
    let v : Int := if signed.1 then -n else n
    if v < -(2 ^ 63) ∨ (2 ^ 63) - 1 < v then none else some v

/-- `OrdinalJsonParser::getInt64` with its default argument `0`: look the key
up and run `std::stoll`, falling back to the default on absence or exception. -/
def getInt64 (m : JsonObject) (k : Str) : Int :=
  match jsonFind m k with
  | some v =>
    match stollOpt v with
    | some n => n
    | none => 0
  | none => 0

/-- One `"key":"value"` unit emitted by `OrdinalJsonParser::serialize`. -/
def serializeItem (kv : Str × Str) : Str :=
  '"' :: kv.1 ++ '"' :: ':' :: '"' :: kv.2 ++ ['"']

/-- The comma-joined body of the serialize loop (`if (!first) ss << ","`):
the first entry plain, every later entry preceded by a comma. -/
def serializeItems : JsonObject → Str
  | [] => []
  | [kv] => serializeItem kv
  | kv :: rest => serializeItem kv ++ ',' :: serializeItems rest

/-- `OrdinalJsonParser::serialize`: emit `{"k":"v",...}` iterating the map in
its (sorted) order. -/
def serialize (m : JsonObject) : Str :=
  lbrace :: serializeItems m ++ [rbrace]

end OrdinalJsonParser

/-- ASCII `::tolower` as applied by the source's `std::transform` calls. -/
def lowerChar (c : Char) : Char :=
  if 'A' ≤ c ∧ c ≤ 'Z' then Char.ofNat (c.toNat + 32) else c

/-- Lowercase normalization of a whole string. -/
def lowerStr (s : Str) : Str := s.map lowerChar

/-- `needle` is a prefix of `hay` (auxiliary for `std::string::find`). -/
def startsWithCh : Str → Str → Bool
  | [], _ => true
  | _ :: _, [] => false
  | a :: as, b :: bs => decide (a = b) && startsWithCh as bs

/-- `hay.find(needle) != npos`: `needle` occurs as a substring of `hay`. -/
def containsSub : Str → Str → Bool
  | [], needle => needle.isEmpty
  | c :: rest, needle => startsWithCh needle (c :: rest) || containsSub rest needle

/-- `OrdinalIndex::isValidUTF8`: the byte-pattern walk of the source, over the
code points of the embedded string. -/
def isValidUTF8 : Str → Bool
  | [] => true
  | c :: rest =>
    if c.toNat &&& 0x80 = 0 then isValidUTF8 rest
    else if c.toNat &&& 0xE0 = 0xC0 then
      match rest with
      | c1 :: r => decide (c1.toNat &&& 0xC0 = 0x80) && isValidUTF8 r
      | [] => false
    else if c.toNat &&& 0xF0 = 0xE0 then
      match rest with
      | c1 :: c2 :: r =>
        decide (c1.toNat &&& 0xC0 = 0x80) && decide (c2.toNat &&& 0xC0 = 0x80) && isValidUTF8 r
      | _ => false
    else if c.toNat &&& 0xF8 = 0xF0 then
      match rest with
      | c1 :: c2 :: c3 :: r =>
        decide (c1.toNat &&& 0xC0 = 0x80) && decide (c2.toNat &&& 0xC0 = 0x80) &&
          decide (c3.toNat &&& 0xC0 = 0x80) && isValidUTF8 r
      | _ => false
    else false

/-- `OrdinalIndex::isValidCNSName`: non-empty, no space character, valid UTF-8. -/
def isValidCNSName (name : Str) : Bool :=
  !name.isEmpty && !(name.any fun c => decide (c = ' ')) && isValidUTF8 name

/-- The `OrdinalType` enum of `ordinalindex.hpp`. -/
inductive OrdinalType
  | Unknown
  | CNS
  | Token
  | Deploy
deriving DecidableEq, Repr

/-- The `CNSInscription` struct as filled by `parseCNSInscription` (the
address/position members set only on storage are carried by `CNSRecord`). -/
structure CNSInscription where
  p : Str
  op : Str
  cns : Str
  relay : Str := []
deriving DecidableEq, Repr

/-- `CNSInscription::normalizedName`. -/
def CNSInscription.normalizedName (c : CNSInscription) : Str := lowerStr c.cns

/-- `CNSInscription::normalizedNamespace`. -/
def CNSInscription.normalizedNamespace (c : CNSInscription) : Str := lowerStr c.p

/-- `CNSInscription::isValid`: note that it compares the raw `p` and `op`
against lowercase literals. -/
def CNSInscription.isValid (c : CNSInscription) : Bool :=
  (decide (c.p = "cdns".data) || decide (c.p = "cns".data)) &&
    (decide (c.op = "reg".data) || decide (c.op = "upd".data) || decide (c.op = "trf".data)) &&
    !c.cns.isEmpty

/-- The `TokenInscription` struct (mint). -/
structure TokenInscription where
  p : Str
  op : Str
  tick : Str
  amt : Int
deriving DecidableEq, Repr

/-- `TokenInscription::isValid`. -/
def TokenInscription.isValid (t : TokenInscription) : Bool :=
  !t.p.isEmpty && !t.op.isEmpty && !t.tick.isEmpty && decide (0 < t.amt)

/-- The `TokenDeployInscription` struct. -/
structure TokenDeployInscription where
  p : Str
  op : Str
  tick : Str
  max : Int
  lim : Int
deriving DecidableEq, Repr

/-- `TokenDeployInscription::isValid`. -/
def TokenDeployInscription.isValid (d : TokenDeployInscription) : Bool :=
  !d.p.isEmpty && !d.op.isEmpty && !d.tick.isEmpty && decide (0 < d.max) && decide (0 < d.lim)

/-- The `TokenState` struct. -/
structure TokenState where
  ticker : Str
  maxSupply : Int
  limitPerMint : Int
  totalMinted : Int
  deployBlock : Nat
  deployer : Addr
deriving DecidableEq, Repr

/-- The JSON record persisted under a CNS key (`p`, `cns` are the key itself;
`op`, `relay`, `owner`, `block`, `txIndex` are the stored attributes). -/
structure CNSRecord where
  op : Str
  relay : Str
  owner : Addr
  blockNumber : Nat
  txIndex : Nat
deriving DecidableEq, Repr

/-- The `OrdinalMetadata` struct persisted under the meta key. -/
structure OrdinalMetadata where
  type : OrdinalType
  blockNumber : Nat
  txIndex : Nat
  source : Addr
  data : Str
deriving DecidableEq, Repr

/-- A `csdb::UserField` value: string, integer or byte payload; absence of the
field is modelled by `Option` at the lookup. -/
inductive UserField
  | str (s : Str)
  | int (n : Int)
  | bytes (b : List Nat)
deriving DecidableEq, Repr

/-- A `csdb::Transaction` as seen by the indexer: source, target, stable id
`(pool_seq, index)` and the user-field table. -/
structure Tx where
  source : Addr
  target : Addr
  poolSeq : Nat
  txIndex : Nat
  userFields : List (Nat × UserField)
deriving DecidableEq, Repr

/-- A `csdb::Pool` as seen by the indexer: height and transaction list. -/
structure Block where
  seq : Nat
  transactions : List Tx
deriving DecidableEq, Repr

/-- Association-list lookup (first match). -/
def alookup {α β : Type} [DecidableEq α] : List (α × β) → α → Option β
  | [], _ => none
  | (k, v) :: rest, k' => if k = k' then some v else alookup rest k'

/-- Association-list overwrite-insert, the model of `Lmdb::insert` (which the
source uses in overwrite mode for existing keys). -/
def ainsert {α β : Type} [DecidableEq α] (l : List (α × β)) (k : α) (v : β) : List (α × β) :=
  (k, v) :: l.filter fun e => decide (e.1 ≠ k)

/-- Association-list removal, the model of `Lmdb::remove`. -/
def aremove {α β : Type} [DecidableEq α] (l : List (α × β)) (k : α) : List (α × β) :=
  l.filter fun e => decide (e.1 ≠ k)

/-- The persisted state of `OrdinalIndex`: the four key-prefix partitions of
the LMDB store, plus the memory-mapped checkpoint `lastIndexedPool_`. -/
structure OIState where
  cns : List ((Str × Str) × CNSRecord)
  tokens : List (Str × TokenState)
  balances : List ((Addr × Str) × Int)
  meta : List ((Nat × Nat) × OrdinalMetadata)
  lastIndexedPool : Nat
deriving DecidableEq, Repr

/-- A fresh store: empty LMDB, checkpoint 0. -/
def initState : OIState := ⟨[], [], [], [], 0⟩

/-- `OrdinalIndex::getCNSByName` (typed view of the stored JSON record). -/
def getCNSByName (s : OIState) (ns name : Str) : Option CNSRecord :=
  alookup s.cns (ns, name)

/-- `OrdinalIndex::isCNSNameAvailable`. -/
def isCNSNameAvailable (s : OIState) (ns name : Str) : Bool :=
  !((alookup s.cns (ns, name)).isSome)

/-- `OrdinalIndex::getToken`. -/
def getToken (s : OIState) (tick : Str) : Option TokenState :=
  alookup s.tokens tick

/-- `OrdinalIndex::getTokenBalance` (absent key reads as 0). -/
def getTokenBalance (s : OIState) (a : Addr) (tick : Str) : Int :=
  (alookup s.balances (a, tick)).getD 0

/-- The alternate user-field id list `kAlternateFieldIds`. -/
def kAlternateFieldIds : List Nat := [0, 1, 2, 5, 10, 100, 999]

/-- The quick content check of the fallback loop: a valid string field whose
content is non-empty and contains both `"p"` and `"op"` (with quotes). -/
def fieldLooksOrdinal (uf : UserField) : Bool :=
  match uf with
  | .str s => !s.isEmpty && containsSub s "\"p\"".data && containsSub s "\"op\"".data
  | _ => false

/-- The fallback loop of `parseOrdinalFromTransaction`: walk the alternate
ids, overwriting the current field each iteration, and stop early at the first
valid field that passes the quick content check. -/
def altLoop (fields : List (Nat × UserField)) : List Nat → Option UserField → Option UserField
  | [], cur => cur
  | id :: rest, _cur =>
    match alookup fields id with
    | some f => if fieldLooksOrdinal f then some f else altLoop fields rest (some f)
    | none => altLoop fields rest none

/-- `OrdinalIndex::parseOrdinalFromTransaction`: read the primary field 1000,
fall back over `kAlternateFieldIds` only when it is absent, require a
non-empty string value, parse it with the tolerant JSON parser and classify
the ordinal type from the lowercased `p` / `op` and the keys present. -/
def parseOrdinalFromTransaction (tx : Tx) : Option OrdinalMetadata :=
  let primary := alookup tx.userFields 1000
  let found : Option UserField :=
    match primary with
    | some f => some f
    | none => altLoop tx.userFields kAlternateFieldIds none
  match found with
  | none => none
  | some uf =>
    match uf with
    | .str data =>
      if data.isEmpty then none
      else
        match OrdinalJsonParser.parse data with
        | none => none
        | some json =>
          if OrdinalJsonParser.hasKey json "p".data ∧ OrdinalJsonParser.hasKey json "op".data then
            let p := lowerStr (OrdinalJsonParser.getString json "p".data)
            let op := lowerStr (OrdinalJsonParser.getString json "op".data)
            let type :=
              if OrdinalJsonParser.hasKey json "cns".data ∧
                  (p = "cdns".data ∨ p = "cns".data) ∧
                  (op = "reg".data ∨ op = "upd".data ∨ op = "trf".data) then
                OrdinalType.CNS
              else if OrdinalJsonParser.hasKey json "tick".data ∧
                  OrdinalJsonParser.hasKey json "amt".data ∧ op = "mint".data then
                OrdinalType.Token
              else if OrdinalJsonParser.hasKey json "tick".data ∧
                  OrdinalJsonParser.hasKey json "max".data ∧
                  OrdinalJsonParser.hasKey json "lim".data ∧ op = "deploy".data then
                OrdinalType.Deploy
              else OrdinalType.Unknown
            some ⟨type, tx.poolSeq, tx.txIndex, tx.source, data⟩
          else none
    | _ => none

/-- `OrdinalIndex::parseCNSInscription`. -/
def parseCNSInscription (json : OrdinalJsonParser.JsonObject) : Option CNSInscription :=
  if OrdinalJsonParser.hasKey json "p".data ∧ OrdinalJsonParser.hasKey json "op".data ∧
      OrdinalJsonParser.hasKey json "cns".data then
    let c : CNSInscription :=
      { p := OrdinalJsonParser.getString json "p".data
        op := OrdinalJsonParser.getString json "op".data
        cns := OrdinalJsonParser.getString json "cns".data
        relay :=
          if OrdinalJsonParser.hasKey json "relay".data then
            OrdinalJsonParser.getString json "relay".data
          else [] }
    if ¬ (c.normalizedNamespace = "cdns".data ∨ c.normalizedNamespace = "cns".data) then none
    else if ¬ (lowerStr c.op = "reg".data ∨ lowerStr c.op = "upd".data ∨
        lowerStr c.op = "trf".data) then none
    else if ¬ isValidCNSName c.cns then none
    else if ¬ c.isValid then none
    else some c
  else none

/-- `OrdinalIndex::parseTokenInscription`. -/
def parseTokenInscription (json : OrdinalJsonParser.JsonObject) : Option TokenInscription :=
  if OrdinalJsonParser.hasKey json "p".data ∧ OrdinalJsonParser.hasKey json "op".data ∧
      OrdinalJsonParser.hasKey json "tick".data ∧ OrdinalJsonParser.hasKey json "amt".data then
    let t : TokenInscription :=
      { p := OrdinalJsonParser.getString json "p".data
        op := OrdinalJsonParser.getString json "op".data
        tick := OrdinalJsonParser.getString json "tick".data
        amt := OrdinalJsonParser.getInt64 json "amt".data }
    if t.isValid then some t else none
  else none

/-- `OrdinalIndex::parseTokenDeployInscription`. -/
def parseTokenDeployInscription (json : OrdinalJsonParser.JsonObject) :
    Option TokenDeployInscription :=
  if OrdinalJsonParser.hasKey json "p".data ∧ OrdinalJsonParser.hasKey json "op".data ∧
      OrdinalJsonParser.hasKey json "tick".data ∧ OrdinalJsonParser.hasKey json "max".data ∧
      OrdinalJsonParser.hasKey json "lim".data then
    let d : TokenDeployInscription :=
      { p := OrdinalJsonParser.getString json "p".data
        op := OrdinalJsonParser.getString json "op".data
        tick := OrdinalJsonParser.getString json "tick".data
        max := OrdinalJsonParser.getInt64 json "max".data
        lim := OrdinalJsonParser.getInt64 json "lim".data }
    if d.isValid then some d else none
  else none

/-- `OrdinalIndex::updateCNS`: reject when the name is absent or the sender is
not the owner; else overwrite the relay (op field of the stored JSON becomes
`upd`), keeping owner and registration position. -/
def updateCNS (s : OIState) (ns name relay : Str) (sender : Addr) : OIState :=
  match getCNSByName s ns name with
  | none => s
  | some r =>
    if r.owner ≠ sender then s
    else
      let r' : CNSRecord :=
        { op := "upd".data, relay := relay, owner := r.owner,
          blockNumber := r.blockNumber, txIndex := r.txIndex }
      { s with cns := ainsert s.cns (ns, name) r' }

/-- `OrdinalIndex::transferCNS`: reject when the name is absent or the sender
is not the owner; else set the owner to `newOwner` (op field of the stored
JSON becomes `trf`), keeping relay and registration position. -/
def transferCNS (s : OIState) (ns name : Str) (newOwner : Addr) (sender : Addr) : OIState :=
  match getCNSByName s ns name with
  | none => s
  | some r =>
    if r.owner ≠ sender then s
    else
      let r' : CNSRecord :=
        { op := "trf".data, relay := r.relay, owner := newOwner,
          blockNumber := r.blockNumber, txIndex := r.txIndex }
      { s with cns := ainsert s.cns (ns, name) r' }

/-- `OrdinalIndex::storeCNS`: dispatch on the lowercased op.  `reg` is
first-seen-wins; `upd` delegates to `updateCNS`; `trf` delegates to
`transferCNS` with the *sender* as the new owner. -/
def storeCNS (s : OIState) (c : CNSInscription) (blockNum txIdx : Nat) (sender : Addr) : OIState :=
  let ns := c.normalizedNamespace
  let name := c.normalizedName
  let nop := lowerStr c.op
  if nop = "reg".data then
    if ¬ isCNSNameAvailable s ns name then s
    else
      let r' : CNSRecord :=
        { op := "reg".data, relay := c.relay, owner := sender,
          blockNumber := blockNum, txIndex := txIdx }
      { s with cns := ainsert s.cns (ns, name) r' }
  else if nop = "upd".data then updateCNS s ns name c.relay sender
  else if nop = "trf".data then transferCNS s ns name sender sender
  else s

/-- `OrdinalIndex::storeTokenDeploy`: first-seen-wins per ticker; a new token
starts with `totalMinted = 0`. -/
def storeTokenDeploy (s : OIState) (d : TokenDeployInscription) (blockNum : Nat)
    (deployer : Addr) : OIState :=
  match getToken s d.tick with
  | some _ => s
  | none =>
    let st : TokenState :=
      { ticker := d.tick, maxSupply := d.max, limitPerMint := d.lim,
        totalMinted := 0, deployBlock := blockNum, deployer := deployer }
    { s with tokens := ainsert s.tokens d.tick st }

/-- `OrdinalIndex::storeTokenMint`: reject when the token is undeployed, the
amount exceeds the per-mint limit, or the mint would exceed the max supply;
else add the amount to `totalMinted` and to the minter's balance. -/
def storeTokenMint (s : OIState) (m : TokenInscription) (minter : Addr) : OIState :=
  match getToken s m.tick with
  | none => s
  | some st =>
    if st.limitPerMint < m.amt then s
    else if st.maxSupply < st.totalMinted + m.amt then s
    else
      let st' := { st with totalMinted := st.totalMinted + m.amt }
      let newBalance := getTokenBalance s minter m.tick + m.amt
      { s with
          tokens := ainsert s.tokens m.tick st'
          balances := ainsert s.balances (minter, m.tick) newBalance }

/-- `OrdinalIndex::removeCNS`: delete the record. -/
def removeCNS (s : OIState) (ns name : Str) : OIState :=
  { s with cns := aremove s.cns (ns, name) }

/-- `OrdinalIndex::removeTokenMint`: subtract the amount from `totalMinted`,
clamped below at 0; no other field and no balance is touched. -/
def removeTokenMint (s : OIState) (tick : Str) (amount : Int) : OIState :=
  match getToken s tick with
  | none => s
  | some st =>
    let st' := { st with totalMinted := max 0 (st.totalMinted - amount) }
    { s with tokens := ainsert s.tokens tick st' }

/-- The `switch (ordinalMeta->type)` dispatch of the transaction loop of
`updateFromNextBlock`.  The `trf`/`TRF` comparison on the raw op selects
`transferCNS` with the transaction *target* as new owner; every other CNS op
goes through `storeCNS`. -/
def applyParsedJson (s : OIState) (tx : Tx) (ty : OrdinalType)
    (json : OrdinalJsonParser.JsonObject) : OIState :=
  match ty with
  | .CNS =>
    match parseCNSInscription json with
    | some c =>
      if c.op = "trf".data ∨ c.op = "TRF".data then
        transferCNS s c.normalizedNamespace c.normalizedName tx.target tx.source
      else storeCNS s c tx.poolSeq tx.txIndex tx.source
    | none => s
  | .Token =>
    match parseTokenInscription json with
    | some t => storeTokenMint s t tx.source
    | none => s
  | .Deploy =>
    match parseTokenDeployInscription json with
    | some d => storeTokenDeploy s d tx.poolSeq tx.source
    | none => s
  | .Unknown => s

/-- The part of the transaction loop body after the metadata write: re-parse
the JSON payload and dispatch on the ordinal type. -/
def applyParsed (s : OIState) (tx : Tx) (m : OrdinalMetadata) : OIState :=
  match OrdinalJsonParser.parse m.data with
  | none => s
  | some json => applyParsedJson s tx m.type json

/-- One iteration of the transaction loop of `updateFromNextBlock`: parse the
ordinal, store its metadata keyed by `(pool_seq, index)` — unconditionally,
with no check for an existing entry — then apply the parsed inscription. -/
def applyTx (s : OIState) (tx : Tx) : OIState :=
  match parseOrdinalFromTransaction tx with
  | none => s
  | some m =>
    applyParsed { s with meta := ainsert s.meta (tx.poolSeq, tx.txIndex) m } tx m

/-- `OrdinalIndex::updateFromNextBlock`: process every transaction of the
block, then advance the checkpoint to the block height (a single write after
the whole loop). -/
def updateFromNextBlock (s : OIState) (b : Block) : OIState :=
  let s' := b.transactions.foldl applyTx s
  { s' with lastIndexedPool := b.seq }

/-- `OrdinalIndex::update` forwards to `updateFromNextBlock`. -/
def update (s : OIState) (b : Block) : OIState := updateFromNextBlock s b

/-- Forward application of a stream of blocks. -/
def applyBlocks (s : OIState) (bs : List Block) : OIState :=
  bs.foldl updateFromNextBlock s

/-- The `switch` dispatch of the `onRemoveBlock` loop: `removeCNS` for every
CNS inscription (any op), `removeTokenMint` for token mints; deploys and
unknown inscriptions are not inverted. -/
def removeParsedJson (s : OIState) (ty : OrdinalType)
    (json : OrdinalJsonParser.JsonObject) : OIState :=
  match ty with
  | .CNS =>
    match parseCNSInscription json with
    | some c => removeCNS s c.normalizedNamespace c.normalizedName
    | none => s
  | .Token =>
    match parseTokenInscription json with
    | some t => removeTokenMint s t.tick t.amt
    | none => s
  | _ => s

/-- One iteration of the `onRemoveBlock` loop: re-parse the inscription and
invert it. -/
def removeTx (s : OIState) (tx : Tx) : OIState :=
  match parseOrdinalFromTransaction tx with
  | none => s
  | some m =>
    match OrdinalJsonParser.parse m.data with
    | none => s
    | some json => removeParsedJson s m.type json

/-- `OrdinalIndex::onRemoveBlock`: invert the inscriptions of the removed
block, then decrement the checkpoint by one. -/
def onRemoveBlock (s : OIState) (b : Block) : OIState :=
  let s' := b.transactions.foldl removeTx s
  { s' with lastIndexedPool := s'.lastIndexedPool - 1 }

/-- Example payload: CNS registration of `Alice` with a relay. -/
def payloadReg : Str :=
  "\x7b\"p\":\"cns\",\"op\":\"reg\",\"cns\":\"Alice\",\"relay\":\"ipfs://x\"\x7d".data

/-- Example payload: CNS transfer of `alice`, op in lowercase. -/
def payloadTrf : Str := "\x7b\"p\":\"cns\",\"op\":\"trf\",\"cns\":\"alice\"\x7d".data

/-- Example payload: CNS update of `alice` with a new relay. -/
def payloadUpd : Str :=
  "\x7b\"p\":\"cns\",\"op\":\"upd\",\"cns\":\"alice\",\"relay\":\"ipfs://y\"\x7d".data

/-- Example payload: deploy of ticker FOO with max supply 100, per-mint 30. -/
def payloadDeploy : Str :=
  "\x7b\"p\":\"crc\",\"op\":\"deploy\",\"tick\":\"FOO\",\"max\":\"100\",\"lim\":\"30\"\x7d".data

/-- Example payload: mint of 10 FOO. -/
def payloadMint : Str :=
  "\x7b\"p\":\"crc\",\"op\":\"mint\",\"tick\":\"FOO\",\"amt\":\"10\"\x7d".data

/-- Example token state: FOO with 10 already minted. -/
def exFOO10 : TokenState := ⟨"FOO".data, 100, 30, 10, 1, 5⟩

/-- Example metadata entry of the mint transaction at `(2, 0)` from source 6. -/
def exMintMeta : OrdinalMetadata := ⟨.Token, 2, 0, 6, payloadMint⟩

/-- The parsed flat object of `payloadMint` (keys in map order). -/
def exMintJson : OrdinalJsonParser.JsonObject :=
  [("amt".data, "10".data), ("op".data, "mint".data),
   ("p".data, "crc".data), ("tick".data, "FOO".data)]

/-- Example mint transaction at `(2, 0)` from source 6. -/
def exMintTx : Tx := ⟨6, 6, 2, 0, [(1000, .str payloadMint)]⟩

/-- Example state after the FOO deploy at block 1 and the mint at `(2, 0)`
have been applied, including the mint's metadata entry. -/
def exMintState : OIState :=
  ⟨[], [("FOO".data, exFOO10)], [((6, "FOO".data), 10)], [((2, 0), exMintMeta)], 2⟩

/-- Example block 1 carrying the FOO deploy from source 5. -/
def exDeployBlock : Block := ⟨1, [⟨5, 5, 1, 0, [(1000, .str payloadDeploy)]⟩]⟩

/-- Example block 2 carrying the FOO mint. -/
def exMintBlock : Block := ⟨2, [exMintTx]⟩

/-- Example CNS store: `cns/alice` registered at `(10, 0)`, owned by 1. -/
def exCnsState : OIState :=
  ⟨[(("cns".data, "alice".data), ⟨"reg".data, [], 1, 10, 0⟩)], [], [], [], 11⟩

/-- Example removed block 11 carrying the lowercase transfer of `alice`
from owner 1 to target 2. -/
def exTrfBlock : Block := ⟨11, [⟨1, 2, 11, 0, [(1000, .str payloadTrf)]⟩]⟩

/-- Example metadata of the transfer transaction at `(11, 0)`. -/
def exTrfMeta : OrdinalMetadata := ⟨.CNS, 11, 0, 1, payloadTrf⟩

/-- The parsed flat object of `payloadTrf`. -/
def exTrfJson : OrdinalJsonParser.JsonObject :=
  [("cns".data, "alice".data), ("op".data, "trf".data), ("p".data, "cns".data)]

/-- The parsed transfer inscription of `payloadTrf`. -/
def exTrfCns : CNSInscription := ⟨"cns".data, "trf".data, "alice".data, []⟩

/-- Key-uniqueness of an association list (the representation invariant of a
keyed LMDB partition). -/
def UniqKeys {α β : Type} (l : List (α × β)) : Prop :=
  (l.map Prod.fst).Nodup

/-- Sum of the balances of every holder for one ticker. -/
def sumBal (tick : Str) : List ((Addr × Str) × Int) → Int
  | [] => 0
  | e :: rest => (if e.1.2 = tick then e.2 else 0) + sumBal tick rest

/-- The total minted amount recorded for a ticker, 0 when undeployed. -/
def mintedOf (tick : Str) (toks : List (Str × TokenState)) : Int :=
  match alookup toks tick with
  | some st => st.totalMinted
  | none => 0

/-- The invariant tying holder balances to `totalMinted`, per ticker, together
with key uniqueness of the balance partition. -/
def BalInv (s : OIState) : Prop :=
  UniqKeys s.balances ∧ ∀ t, sumBal t s.balances = mintedOf t s.tokens

/-- Structural characters of the flat JSON encoding. -/
def jsonSpecialChar (c : Char) : Bool :=
  c = lbrace || c = rbrace || c = ',' || c = ':' || c = '"'

/-- A string containing no structural JSON character and no leading or
trailing whitespace (the round-trip precondition on keys and values). -/
def okJsonStr (s : Str) : Bool :=
  s.all (fun c => !jsonSpecialChar c) &&
    (match s.head? with
     | some c => !isTrimWs c
     | none => true) &&
    (match s.getLast? with
     | some c => !isTrimWs c
     | none => true)

/-- Well-formedness of a `JsonObject` value as the contents of a
`std::map<std::string, std::string>`: keys strictly sorted (hence unique),
non-empty, and keys and values within the constrained character set. -/
def wfJsonObject (m : OrdinalJsonParser.JsonObject) : Prop :=
  m.Pairwise (fun a b => OrdinalJsonParser.ltChars a.1 b.1 = true) ∧
    ∀ kv ∈ m, kv.1 ≠ [] ∧ okJsonStr kv.1 = true ∧ okJsonStr kv.2 = true

theorem alookup_filter_ne {α β : Type} [DecidableEq α] (l : List (α × β)) (k k' : α)
    (h : k' ≠ k) :
    alookup (l.filter fun e => decide (e.1 ≠ k)) k' = alookup l k' := by
  induction l with
  | nil => rfl
  | cons e t ih =>
    by_cases he : e.1 = k
    · have h1 : (e :: t).filter (fun e => decide (e.1 ≠ k)) =
          t.filter (fun e => decide (e.1 ≠ k)) := by
        simp [List.filter_cons, he]
      rw [h1, ih]
      show alookup t k' = alookup (e :: t) k'
      simp only [alookup]
      rw [if_neg (fun hc : e.1 = k' => h ((he.symm.trans hc).symm))]
    · have h1 : (e :: t).filter (fun e => decide (e.1 ≠ k)) =
          e :: t.filter (fun e => decide (e.1 ≠ k)) := by
        simp [List.filter_cons, he]
      rw [h1]
      simp only [alookup]
      by_cases he' : e.1 = k'
      · rw [if_pos he', if_pos he']
      · rw [if_neg he', if_neg he', ih]

theorem alookup_ainsert_self {α β : Type} [DecidableEq α] (l : List (α × β)) (k : α) (v : β) :
    alookup (ainsert l k v) k = some v := by
  simp [ainsert, alookup]

theorem alookup_ainsert_ne {α β : Type} [DecidableEq α] (l : List (α × β)) (k k' : α) (v : β)
    (h : k' ≠ k) :
    alookup (ainsert l k v) k' = alookup l k' := by
  simp only [ainsert, alookup]
  rw [if_neg (fun hc => h hc.symm)]
  exact alookup_filter_ne l k k' h

theorem uniqKeys_filter {α β : Type} (l : List (α × β)) (p : α × β → Bool)
    (h : UniqKeys l) : UniqKeys (l.filter p) := by
  unfold UniqKeys at *
  induction l with
  | nil => simp
  | cons e t ih =>
    simp only [List.map_cons, List.nodup_cons] at h
    by_cases hp : p e = true
    · simp only [List.filter_cons, hp, if_pos, List.map_cons, List.nodup_cons]
      refine ⟨fun hc => h.1 ?_, ih h.2⟩
      · rcases List.mem_map.mp hc with ⟨e', he', hfst⟩
        exact List.mem_map.mpr ⟨e', List.mem_of_mem_filter he', hfst⟩
    · simp only [List.filter_cons, hp]
      exact ih h.2

theorem uniqKeys_ainsert {α β : Type} [DecidableEq α] (l : List (α × β)) (k : α) (v : β)
    (h : UniqKeys l) : UniqKeys (ainsert l k v) := by
  unfold UniqKeys
  simp only [ainsert, List.map_cons, List.nodup_cons]
  constructor
  · intro hc
    rcases List.mem_map.mp hc with ⟨e, he, hfst⟩
    rcases List.mem_filter.mp he with ⟨_, hne⟩
    exact (of_decide_eq_true hne) hfst
  · exact uniqKeys_filter l _ h

theorem uniqKeys_aremove {α β : Type} [DecidableEq α] (l : List (α × β)) (k : α)
    (h : UniqKeys l) : UniqKeys (aremove l k) :=
  uniqKeys_filter l _ h

/-- C5: a mint on an undeployed token, a mint exceeding the per-mint limit,
and a mint that would exceed the max supply all leave the state unchanged;
an accepted mint adds exactly `amt` to `totalMinted` and to the minter's
balance, and the resulting token state satisfies
`totalMinted ≤ maxSupply`. -/
theorem storeTokenMint_spec (s : OIState) (m : TokenInscription) (minter : Addr) :
    (getToken s m.tick = none → storeTokenMint s m minter = s) ∧
    (∀ st, getToken s m.tick = some st →
      ((st.limitPerMint < m.amt ∨ st.maxSupply < st.totalMinted + m.amt) →
        storeTokenMint s m minter = s) ∧
      (m.amt ≤ st.limitPerMint → st.totalMinted + m.amt ≤ st.maxSupply →
        getToken (storeTokenMint s m minter) m.tick =
          some { st with totalMinted := st.totalMinted + m.amt } ∧
        getTokenBalance (storeTokenMint s m minter) minter m.tick =
          getTokenBalance s minter m.tick + m.amt ∧
        (∀ st', getToken (storeTokenMint s m minter) m.tick = some st' →
          st'.totalMinted ≤ st'.maxSupply))) := by
  constructor
  · intro h
    simp [storeTokenMint, h]
  · intro st hst
    constructor
    · rintro (h1 | h1)
      · simp [storeTokenMint, hst, h1]
      · by_cases h2 : st.limitPerMint < m.amt
        · simp [storeTokenMint, hst, h2]
        · simp [storeTokenMint, hst, h2, h1]
    · intro hlim hmax
      have h2 : ¬ st.limitPerMint < m.amt := not_lt.mpr hlim
      have h3 : ¬ st.maxSupply < st.totalMinted + m.amt := not_lt.mpr hmax
      have hres : storeTokenMint s m minter =
          { s with
              tokens := ainsert s.tokens m.tick { st with totalMinted := st.totalMinted + m.amt }
              balances := ainsert s.balances (minter, m.tick)
                (getTokenBalance s minter m.tick + m.amt) } := by
        simp [storeTokenMint, hst, h2, h3]
      refine ⟨?_, ?_, ?_⟩
      · rw [hres]
        exact alookup_ainsert_self s.tokens m.tick
          { st with totalMinted := st.totalMinted + m.amt }
      · rw [hres]
        show (alookup (ainsert s.balances (minter, m.tick)
            (getTokenBalance s minter m.tick + m.amt)) (minter, m.tick)).getD 0 = _
        rw [alookup_ainsert_self]
        rfl
      · intro st' h'
        rw [hres] at h'
        rw [show getToken { s with
            tokens := ainsert s.tokens m.tick { st with totalMinted := st.totalMinted + m.amt }
            balances := ainsert s.balances (minter, m.tick)
              (getTokenBalance s minter m.tick + m.amt) } m.tick =
            some { st with totalMinted := st.totalMinted + m.amt } from
          alookup_ainsert_self s.tokens m.tick
            { st with totalMinted := st.totalMinted + m.amt }] at h'
        cases h'
        simpa using hmax

/-- C5 witness: an accepted mint of 10 FOO by holder 7 against a token with
max supply 100, per-mint limit 30 and nothing minted yet. -/
theorem storeTokenMint_spec_witness :
    getToken (storeTokenMint ⟨[], [("FOO".data,
        ⟨"FOO".data, 100, 30, 0, 1, 5⟩)], [], [], 2⟩
        ⟨"crc".data, "mint".data, "FOO".data, 10⟩ 7) "FOO".data =
      some ⟨"FOO".data, 100, 30, 10, 1, 5⟩ ∧
    getTokenBalance (storeTokenMint ⟨[], [("FOO".data,
        ⟨"FOO".data, 100, 30, 0, 1, 5⟩)], [], [], 2⟩
        ⟨"crc".data, "mint".data, "FOO".data, 10⟩ 7) 7 "FOO".data =
      getTokenBalance ⟨[], [("FOO".data, ⟨"FOO".data, 100, 30, 0, 1, 5⟩)], [], [], 2⟩
        7 "FOO".data + 10 ∧
    (∀ st', getToken (storeTokenMint ⟨[], [("FOO".data,
        ⟨"FOO".data, 100, 30, 0, 1, 5⟩)], [], [], 2⟩
        ⟨"crc".data, "mint".data, "FOO".data, 10⟩ 7) "FOO".data = some st' →
      st'.totalMinted ≤ st'.maxSupply) :=
  ((storeTokenMint_spec ⟨[], [("FOO".data, ⟨"FOO".data, 100, 30, 0, 1, 5⟩)], [], [], 2⟩
      ⟨"crc".data, "mint".data, "FOO".data, 10⟩ 7).2
    ⟨"FOO".data, 100, 30, 0, 1, 5⟩ (by decide)).2 (by decide) (by decide)

/-- C9: `removeTokenMint` on a deployed ticker decreases `totalMinted` by the
amount, clamped below at 0, leaves every other token field, the token map at
other tickers, every balance, and the CNS store unchanged; on an undeployed
ticker it changes nothing. -/
theorem removeTokenMint_spec (s : OIState) (tick : Str) (amount : Int) :
    (getToken s tick = none → removeTokenMint s tick amount = s) ∧
    (∀ st, getToken s tick = some st →
      getToken (removeTokenMint s tick amount) tick =
        some { st with totalMinted := max 0 (st.totalMinted - amount) } ∧
      (∀ t', t' ≠ tick → getToken (removeTokenMint s tick amount) t' = getToken s t') ∧
      (removeTokenMint s tick amount).balances = s.balances ∧
      (removeTokenMint s tick amount).cns = s.cns ∧
      (removeTokenMint s tick amount).lastIndexedPool = s.lastIndexedPool) := by
  constructor
  · intro h
    simp [removeTokenMint, h]
  · intro st hst
    have hres : removeTokenMint s tick amount =
        { s with tokens := ainsert s.tokens tick { st with totalMinted := max 0 (st.totalMinted - amount) } } := by
      simp [removeTokenMint, hst]
    refine ⟨?_, ?_, ?_, ?_, ?_⟩
    · rw [hres]
      exact alookup_ainsert_self s.tokens tick
        { st with totalMinted := max 0 (st.totalMinted - amount) }
    · intro t' ht'
      rw [hres]
      exact alookup_ainsert_ne _ _ _ _ ht'
    · rw [hres]
    · rw [hres]
    · rw [hres]

/-- C9 witness: removing a mint of 30 FOO from a token with 10 minted clamps
`totalMinted` to 0 and leaves everything else alone. -/
theorem removeTokenMint_spec_witness :
    getToken (removeTokenMint ⟨[], [("FOO".data,
        ⟨"FOO".data, 100, 30, 10, 1, 5⟩)], [((7, "FOO".data), 10)], [], 2⟩
        "FOO".data 30) "FOO".data =
      some ⟨"FOO".data, 100, 30, 0, 1, 5⟩ ∧
    (removeTokenMint ⟨[], [("FOO".data, ⟨"FOO".data, 100, 30, 10, 1, 5⟩)],
        [((7, "FOO".data), 10)], [], 2⟩ "FOO".data 30).balances =
      [((7, "FOO".data), 10)] := by
  have h := ((removeTokenMint_spec ⟨[], [("FOO".data, ⟨"FOO".data, 100, 30, 10, 1, 5⟩)],
      [((7, "FOO".data), 10)], [], 2⟩ "FOO".data 30).2
    ⟨"FOO".data, 100, 30, 10, 1, 5⟩ (by decide))
  exact ⟨h.1, h.2.2.1⟩

/-- C6: for any `(namespace, name)` pair the store holds at most one record
(every `storeCNS` preserves key-uniqueness of the CNS partition), and a `reg`
targeting an occupied pair leaves the whole state unchanged, preserving the
earlier registration. -/
theorem storeCNS_reg_firstSeen :
    (∀ (s : OIState) (c : CNSInscription) (bn ti : Nat) (sender : Addr),
      lowerStr c.op = "reg".data →
      (alookup s.cns (c.normalizedNamespace, c.normalizedName)).isSome = true →
      storeCNS s c bn ti sender = s) ∧
    (∀ (s : OIState) (c : CNSInscription) (bn ti : Nat) (sender : Addr),
      UniqKeys s.cns → UniqKeys (storeCNS s c bn ti sender).cns) := by
  constructor
  · intro s c bn ti sender hop hocc
    simp [storeCNS, hop, isCNSNameAvailable, hocc]
  · intro s c bn ti sender hu
    unfold storeCNS
    by_cases h1 : lowerStr c.op = "reg".data
    · simp only [h1, if_pos]
      by_cases h2 : isCNSNameAvailable s c.normalizedNamespace c.normalizedName
      · simp only [h2, not_true, if_neg, not_false_iff]
        exact uniqKeys_ainsert _ _ _ hu
      · simp [h2, hu]
    · rw [if_neg h1]
      by_cases h2 : lowerStr c.op = "upd".data
      · rw [if_pos h2]
        unfold updateCNS
        split
        · exact hu
        · split
          · exact hu
          · exact uniqKeys_ainsert _ _ _ hu
      · rw [if_neg h2]
        by_cases h3 : lowerStr c.op = "trf".data
        · rw [if_pos h3]
          unfold transferCNS
          split
          · exact hu
          · split
            · exact hu
            · exact uniqKeys_ainsert _ _ _ hu
        · rw [if_neg h3]
          exact hu

/-- C6 witness: a second `reg` of `cns/alice` against a store that already
holds the name is a complete no-op, and uniqueness is preserved. -/
theorem storeCNS_reg_firstSeen_witness :
    storeCNS ⟨[(("cns".data, "alice".data), ⟨"reg".data, [], 1, 10, 0⟩)], [], [], [], 11⟩
        ⟨"cns".data, "reg".data, "alice".data, []⟩ 12 0 9 =
      ⟨[(("cns".data, "alice".data), ⟨"reg".data, [], 1, 10, 0⟩)], [], [], [], 11⟩ ∧
    UniqKeys (storeCNS ⟨[(("cns".data, "alice".data), ⟨"reg".data, [], 1, 10, 0⟩)],
        [], [], [], 11⟩ ⟨"cns".data, "reg".data, "alice".data, []⟩ 12 0 9).cns :=
  ⟨storeCNS_reg_firstSeen.1 _ ⟨"cns".data, "reg".data, "alice".data, []⟩ 12 0 9
      (by decide) (by decide),
    storeCNS_reg_firstSeen.2 _ ⟨"cns".data, "reg".data, "alice".data, []⟩ 12 0 9
      (by simp [UniqKeys])⟩

/-- C8: over a stream of blocks with strictly increasing heights, after each
`update` (= `updateFromNextBlock`, the `apply_block` of the spec) the
checkpoint equals the height of the block just applied; the checkpoint
sequence is non-decreasing; and the height of the latest applied block is the
highest applied so far, so the checkpoint after each call equals the highest
fully applied height.  The checkpoint write happens once, after the whole
transaction loop (visible in the definition of `updateFromNextBlock`). -/
theorem checkpoint_monotone (s0 : OIState) (bs : List Block)
    (hinc : List.Chain' (fun a b => a.seq < b.seq) bs) :
    (∀ (n : Nat) (hn : n < bs.length),
      (applyBlocks s0 (bs.take (n + 1))).lastIndexedPool = (bs.get ⟨n, hn⟩).seq) ∧
    (∀ (m n : Nat), m < bs.length → n < bs.length → m ≤ n →
      (applyBlocks s0 (bs.take (m + 1))).lastIndexedPool ≤
        (applyBlocks s0 (bs.take (n + 1))).lastIndexedPool) ∧
    (∀ (m n : Nat) (hm : m < bs.length) (hn : n < bs.length), m ≤ n →
      (bs.get ⟨m, hm⟩).seq ≤ (bs.get ⟨n, hn⟩).seq) := by
  have key : ∀ (n : Nat) (hn : n < bs.length),
      (applyBlocks s0 (bs.take (n + 1))).lastIndexedPool = (bs.get ⟨n, hn⟩).seq := by
    intro n hn
    have ht : bs.take (n + 1) = bs.take n ++ [bs.get ⟨n, hn⟩] := by
      rw [List.take_succ]
      congr 1
      rw [List.getElem?_eq_getElem hn]
      rfl
    rw [ht]
    unfold applyBlocks
    rw [List.foldl_append]
    rfl
  have hpair : List.Pairwise (fun a b => a.seq < b.seq) bs := by
    haveI : IsTrans Block (fun a b => a.seq < b.seq) :=
      ⟨fun _ _ _ hab hbc => Nat.lt_trans hab hbc⟩
    exact List.chain'_iff_pairwise.mp hinc
  have hget : ∀ (m n : Nat) (hm : m < bs.length) (hn : n < bs.length), m ≤ n →
      (bs.get ⟨m, hm⟩).seq ≤ (bs.get ⟨n, hn⟩).seq := by
    intro m n hm hn hmn
    rcases Nat.lt_or_ge m n with h | h
    · exact le_of_lt (List.pairwise_iff_get.mp hpair ⟨m, hm⟩ ⟨n, hn⟩ h)
    · have hmn' : m = n := le_antisymm hmn h
      subst hmn'
      exact le_refl _
  refine ⟨key, ?_, hget⟩
  intro m n hm hn hmn
  rw [key m hm, key n hn]
  exact hget m n hm hn hmn

/-- C8 witness: two empty blocks at heights 1 and 2 leave the checkpoint at 2. -/
theorem checkpoint_monotone_witness :
    (applyBlocks initState ([⟨1, []⟩, ⟨2, []⟩] : List Block)).lastIndexedPool = 2 := by
  have h := (checkpoint_monotone initState ([⟨1, []⟩, ⟨2, []⟩] : List Block)
    (List.chain'_cons.mpr ⟨by decide, List.chain'_singleton _⟩)).1 1 (by decide)
  simpa using h

theorem sumBal_filter_ne (tick : Str) (l : List ((Addr × Str) × Int)) (k : Addr × Str)
    (h : k.2 ≠ tick) :
    sumBal tick (l.filter fun e => decide (e.1 ≠ k)) = sumBal tick l := by
  induction l with
  | nil => rfl
  | cons e t ih =>
    by_cases he : e.1 = k
    · have hz : (if e.1.2 = tick then e.2 else 0) = 0 := by
        rw [if_neg]
        rw [he]
        exact h
      have h1 : (e :: t).filter (fun e => decide (e.1 ≠ k)) =
          t.filter (fun e => decide (e.1 ≠ k)) := by
        simp [List.filter_cons, he]
      rw [h1, ih]
      show sumBal tick t = sumBal tick (e :: t)
      simp [sumBal, hz]
    · have h1 : (e :: t).filter (fun e => decide (e.1 ≠ k)) =
          e :: t.filter (fun e => decide (e.1 ≠ k)) := by
        simp [List.filter_cons, he]
      rw [h1]
      show (if e.1.2 = tick then e.2 else 0) +
          sumBal tick (t.filter fun e => decide (e.1 ≠ k)) = _
      rw [ih]
      rfl

theorem sumBal_eq_lookup_add (tick : Str) (l : List ((Addr × Str) × Int)) (a : Addr)
    (hu : UniqKeys l) :
    sumBal tick l = (alookup l (a, tick)).getD 0 +
      sumBal tick (l.filter fun e => decide (e.1 ≠ (a, tick))) := by
  induction l with
  | nil => rfl
  | cons e t ih =>
    have hu' : UniqKeys t := by
      unfold UniqKeys at hu ⊢
      exact (List.nodup_cons.mp hu).2
    by_cases he : e.1 = (a, tick)
    · have hnotin : e.1 ∉ t.map Prod.fst := (List.nodup_cons.mp hu).1
      have hfil : t.filter (fun e => decide (e.1 ≠ (a, tick))) = t := by
        apply List.filter_eq_self.mpr
        intro e' he'
        apply decide_eq_true
        intro hc
        exact hnotin (he ▸ hc ▸ List.mem_map_of_mem Prod.fst he')
      have h1 : (e :: t).filter (fun e => decide (e.1 ≠ (a, tick))) =
          t.filter (fun e => decide (e.1 ≠ (a, tick))) := by
        simp [List.filter_cons, he]
      have hlk : alookup (e :: t) (a, tick) = some e.2 := by
        show (if e.1 = (a, tick) then some e.2 else alookup t (a, tick)) = some e.2
        rw [if_pos he]
      have htick : e.1.2 = tick := by rw [he]
      rw [h1, hfil, hlk]
      show (if e.1.2 = tick then e.2 else 0) + sumBal tick t = e.2 + sumBal tick t
      rw [if_pos htick]
    · have h1 : (e :: t).filter (fun e => decide (e.1 ≠ (a, tick))) =
          e :: t.filter (fun e => decide (e.1 ≠ (a, tick))) := by
        simp [List.filter_cons, he]
      have hlk : alookup (e :: t) (a, tick) = alookup t (a, tick) := by
        show (if e.1 = (a, tick) then some e.2 else alookup t (a, tick)) = _
        rw [if_neg he]
      rw [h1, hlk]
      show (if e.1.2 = tick then e.2 else 0) + sumBal tick t =
        (alookup t (a, tick)).getD 0 +
          ((if e.1.2 = tick then e.2 else 0) +
            sumBal tick (t.filter fun e => decide (e.1 ≠ (a, tick))))
      rw [ih hu']
      omega

theorem sumBal_ainsert_self (tick : Str) (l : List ((Addr × Str) × Int)) (a : Addr) (v : Int)
    (hu : UniqKeys l) :
    sumBal tick (ainsert l (a, tick) v) =
      sumBal tick l - (alookup l (a, tick)).getD 0 + v := by
  unfold ainsert
  show (if tick = tick then v else 0) +
      sumBal tick (l.filter fun e => decide (e.1 ≠ (a, tick))) = _
  rw [if_pos rfl, sumBal_eq_lookup_add tick l a hu]
  omega

theorem sumBal_ainsert_ne (tick t' : Str) (l : List ((Addr × Str) × Int)) (a : Addr) (v : Int)
    (h : t' ≠ tick) :
    sumBal tick (ainsert l (a, t') v) = sumBal tick l := by
  unfold ainsert
  show (if t' = tick then v else 0) +
      sumBal tick (l.filter fun e => decide (e.1 ≠ (a, t'))) = _
  rw [if_neg h, sumBal_filter_ne tick l (a, t') h]
  omega

theorem updateCNS_tokens_balances (s : OIState) (ns name relay : Str) (sender : Addr) :
    (updateCNS s ns name relay sender).tokens = s.tokens ∧
    (updateCNS s ns name relay sender).balances = s.balances := by
  unfold updateCNS
  split
  · exact ⟨rfl, rfl⟩
  · split
    · exact ⟨rfl, rfl⟩
    · exact ⟨rfl, rfl⟩

theorem transferCNS_tokens_balances (s : OIState) (ns name : Str) (newOwner sender : Addr) :
    (transferCNS s ns name newOwner sender).tokens = s.tokens ∧
    (transferCNS s ns name newOwner sender).balances = s.balances := by
  unfold transferCNS
  split
  · exact ⟨rfl, rfl⟩
  · split
    · exact ⟨rfl, rfl⟩
    · exact ⟨rfl, rfl⟩

theorem storeCNS_tokens_balances (s : OIState) (c : CNSInscription) (bn ti : Nat)
    (sender : Addr) :
    (storeCNS s c bn ti sender).tokens = s.tokens ∧
    (storeCNS s c bn ti sender).balances = s.balances := by
  unfold storeCNS
  by_cases h1 : lowerStr c.op = "reg".data
  · simp only [h1, if_pos]
    by_cases h2 : isCNSNameAvailable s c.normalizedNamespace c.normalizedName
    · simp [h2]
    · simp [h2]
  · rw [if_neg h1]
    by_cases h2 : lowerStr c.op = "upd".data
    · rw [if_pos h2]
      exact updateCNS_tokens_balances ..
    · rw [if_neg h2]
      by_cases h3 : lowerStr c.op = "trf".data
      · rw [if_pos h3]
        exact transferCNS_tokens_balances ..
      · rw [if_neg h3]
        exact ⟨rfl, rfl⟩

theorem balInv_storeTokenMint (s : OIState) (m : TokenInscription) (minter : Addr)
    (h : BalInv s) : BalInv (storeTokenMint s m minter) := by
  cases hst : getToken s m.tick with
  | none =>
    have hred : storeTokenMint s m minter = s := by
      simp [storeTokenMint, hst]
    rw [hred]
    exact h
  | some st =>
    by_cases h1 : st.limitPerMint < m.amt
    · have hred : storeTokenMint s m minter = s := by
        simp [storeTokenMint, hst, h1]
      rw [hred]
      exact h
    · by_cases h2 : st.maxSupply < st.totalMinted + m.amt
      · have hred : storeTokenMint s m minter = s := by
          simp [storeTokenMint, hst, h1, h2]
        rw [hred]
        exact h
      · have hred : storeTokenMint s m minter =
            { s with
                tokens := ainsert s.tokens m.tick { st with totalMinted := st.totalMinted + m.amt }
                balances := ainsert s.balances (minter, m.tick) (getTokenBalance s minter m.tick + m.amt) } := by
          simp [storeTokenMint, hst, h1, h2]
        rw [hred]
        refine ⟨uniqKeys_ainsert _ _ _ h.1, ?_⟩
        intro t
        have hst' : alookup s.tokens m.tick = some st := hst
        by_cases ht : t = m.tick
        · rw [ht]
          show sumBal m.tick (ainsert s.balances (minter, m.tick)
              (getTokenBalance s minter m.tick + m.amt)) =
            mintedOf m.tick (ainsert s.tokens m.tick
              { st with totalMinted := st.totalMinted + m.amt })
          rw [sumBal_ainsert_self m.tick s.balances minter _ h.1]
          have hm2 : mintedOf m.tick (ainsert s.tokens m.tick
              { st with totalMinted := st.totalMinted + m.amt }) =
              st.totalMinted + m.amt := by
            unfold mintedOf
            rw [alookup_ainsert_self]
          rw [hm2]
          have hprev : sumBal m.tick s.balances = st.totalMinted := by
            have hh := h.2 m.tick
            unfold mintedOf at hh
            rw [hst'] at hh
            exact hh
          unfold getTokenBalance
          omega
        · show sumBal t (ainsert s.balances (minter, m.tick)
              (getTokenBalance s minter m.tick + m.amt)) =
            mintedOf t (ainsert s.tokens m.tick { st with totalMinted := st.totalMinted + m.amt })
          rw [sumBal_ainsert_ne t m.tick s.balances minter _ (fun hc => ht hc.symm)]
          have hm : mintedOf t (ainsert s.tokens m.tick
              { st with totalMinted := st.totalMinted + m.amt }) = mintedOf t s.tokens := by
            unfold mintedOf
            rw [alookup_ainsert_ne _ _ _ _ ht]
          rw [hm]
          exact h.2 t

theorem balInv_storeTokenDeploy (s : OIState) (d : TokenDeployInscription) (bn : Nat)
    (deployer : Addr) (h : BalInv s) : BalInv (storeTokenDeploy s d bn deployer) := by
  cases hst : getToken s d.tick with
  | some st =>
    have hred : storeTokenDeploy s d bn deployer = s := by
      simp [storeTokenDeploy, hst]
    rw [hred]
    exact h
  | none =>
    have hred : storeTokenDeploy s d bn deployer =
        { s with tokens := ainsert s.tokens d.tick { ticker := d.tick, maxSupply := d.max, limitPerMint := d.lim, totalMinted := 0, deployBlock := bn, deployer := deployer } } := by
      simp [storeTokenDeploy, hst]
    rw [hred]
    refine ⟨h.1, ?_⟩
    intro t
    have hst' : alookup s.tokens d.tick = none := hst
    by_cases ht : t = d.tick
    · have hm : mintedOf t (ainsert s.tokens d.tick
          { ticker := d.tick, maxSupply := d.max, limitPerMint := d.lim,
            totalMinted := 0, deployBlock := bn, deployer := deployer }) = 0 := by
        unfold mintedOf
        rw [ht, alookup_ainsert_self]
      show sumBal t s.balances = mintedOf t (ainsert s.tokens d.tick
        { ticker := d.tick, maxSupply := d.max, limitPerMint := d.lim,
          totalMinted := 0, deployBlock := bn, deployer := deployer })
      rw [hm, ht]
      have hh := h.2 d.tick
      unfold mintedOf at hh
      rw [hst'] at hh
      exact hh
    · have hm : mintedOf t (ainsert s.tokens d.tick
          { ticker := d.tick, maxSupply := d.max, limitPerMint := d.lim,
            totalMinted := 0, deployBlock := bn, deployer := deployer }) =
          mintedOf t s.tokens := by
        unfold mintedOf
        rw [alookup_ainsert_ne _ _ _ _ ht]
      show sumBal t s.balances = mintedOf t (ainsert s.tokens d.tick
        { ticker := d.tick, maxSupply := d.max, limitPerMint := d.lim,
          totalMinted := 0, deployBlock := bn, deployer := deployer })
      rw [hm]
      exact h.2 t

theorem balInv_applyParsedJson (s : OIState) (tx : Tx) (ty : OrdinalType)
    (json : OrdinalJsonParser.JsonObject) (h : BalInv s) :
    BalInv (applyParsedJson s tx ty json) := by
  cases ty with
  | Unknown => exact h
  | CNS =>
    show BalInv (match parseCNSInscription json with
      | some c =>
        if c.op = "trf".data ∨ c.op = "TRF".data then
          transferCNS s c.normalizedNamespace c.normalizedName tx.target tx.source
        else storeCNS s c tx.poolSeq tx.txIndex tx.source
      | none => s)
    cases hc : parseCNSInscription json with
    | none => exact h
    | some c =>
      show BalInv (if c.op = "trf".data ∨ c.op = "TRF".data then
        transferCNS s c.normalizedNamespace c.normalizedName tx.target tx.source
        else storeCNS s c tx.poolSeq tx.txIndex tx.source)
      by_cases hop : c.op = "trf".data ∨ c.op = "TRF".data
      · rw [if_pos hop]
        have hf := transferCNS_tokens_balances s
          c.normalizedNamespace c.normalizedName tx.target tx.source
        exact ⟨hf.2 ▸ h.1, fun t => by rw [hf.1, hf.2]; exact h.2 t⟩
      · rw [if_neg hop]
        have hf := storeCNS_tokens_balances s c tx.poolSeq tx.txIndex tx.source
        exact ⟨hf.2 ▸ h.1, fun t => by rw [hf.1, hf.2]; exact h.2 t⟩
  | Token =>
    show BalInv (match parseTokenInscription json with
      | some t => storeTokenMint s t tx.source
      | none => s)
    cases ht : parseTokenInscription json with
    | none => exact h
    | some t => exact balInv_storeTokenMint s t tx.source h
  | Deploy =>
    show BalInv (match parseTokenDeployInscription json with
      | some d => storeTokenDeploy s d tx.poolSeq tx.source
      | none => s)
    cases hd : parseTokenDeployInscription json with
    | none => exact h
    | some d => exact balInv_storeTokenDeploy s d tx.poolSeq tx.source h

theorem balInv_applyTx (s : OIState) (tx : Tx) (h : BalInv s) : BalInv (applyTx s tx) := by
  unfold applyTx
  cases hp : parseOrdinalFromTransaction tx with
  | none => exact h
  | some m =>
    show BalInv (applyParsed { s with meta := ainsert s.meta (tx.poolSeq, tx.txIndex) m } tx m)
    have h1 : BalInv { s with meta := ainsert s.meta (tx.poolSeq, tx.txIndex) m } := h
    unfold applyParsed
    cases hj : OrdinalJsonParser.parse m.data with
    | none => exact h1
    | some json => exact balInv_applyParsedJson _ tx m.type json h1

theorem balInv_foldl (l : List Tx) : ∀ s : OIState, BalInv s → BalInv (l.foldl applyTx s) := by
  induction l with
  | nil => exact fun s h => h
  | cons tx rest ih => exact fun s h => ih (applyTx s tx) (balInv_applyTx s tx h)

theorem balInv_applyBlocks (bs : List Block) :
    ∀ s : OIState, BalInv s → BalInv (applyBlocks s bs) := by
  induction bs with
  | nil => exact fun s h => h
  | cons b rest ih =>
    intro s h
    show BalInv (applyBlocks (updateFromNextBlock s b) rest)
    apply ih
    have hb : BalInv (b.transactions.foldl applyTx s) := balInv_foldl b.transactions s h
    exact hb

/-- C7: after applying any block sequence forward from a fresh store (no
removals), for every ticker the sum of all holder balances equals that
ticker's `totalMinted`. -/
theorem balance_sum_eq_totalMinted (bs : List Block) (tick : Str) :
    sumBal tick (applyBlocks initState bs).balances =
      mintedOf tick (applyBlocks initState bs).tokens := by
  have h0 : BalInv initState := ⟨List.nodup_nil, fun _ => rfl⟩
  exact (balInv_applyBlocks bs initState h0).2 tick

theorem alookup_aremove_self {α β : Type} [DecidableEq α] (l : List (α × β)) (k : α) :
    alookup (aremove l k) k = none := by
  induction l with
  | nil => rfl
  | cons e t ih =>
    by_cases he : e.1 = k
    · have h1 : aremove (e :: t) k = aremove t k := by
        simp [aremove, List.filter_cons, he]
      rw [h1, ih]
    · have h1 : aremove (e :: t) k = e :: aremove t k := by
        simp [aremove, List.filter_cons, he]
      rw [h1]
      show (if e.1 = k then some e.2 else alookup (aremove t k) k) = none
      rw [if_neg he, ih]

/-- C1: the claim fails on the code.  `CNSInscription::isValid` compares the
*raw* op against the lowercase literals, so an inscription whose op merely
lower-cases to `trf` (e.g. `TRF`) is rejected by `parseCNSInscription` and
applies no transfer at all: the record owner stays the source, not the
target — even though the dedicated `op == "TRF"` dispatch branch in
`updateFromNextBlock` and its comment show the uppercase spelling was meant
to transfer to the target.  The same transaction with op exactly `trf` does
transfer ownership to the target.  This theorem evaluates both runs: owner 1
sends to target 2 a transfer of the name `cns/alice` it owns; with op `TRF`
the post-state owner is still 1, with op `trf` it is 2. -/
theorem trf_casing_code_bug :
    lowerStr "TRF".data = "trf".data ∧
    (getCNSByName (applyTx
        ⟨[(("cns".data, "alice".data), ⟨"reg".data, [], 1, 10, 0⟩)], [], [], [], 10⟩
        ⟨1, 2, 11, 0, [(1000, UserField.str
          "\x7b\"p\":\"cns\",\"op\":\"TRF\",\"cns\":\"alice\"\x7d".data)]⟩)
      "cns".data "alice".data).map CNSRecord.owner = some 1 ∧
    (getCNSByName (applyTx
        ⟨[(("cns".data, "alice".data), ⟨"reg".data, [], 1, 10, 0⟩)], [], [], [], 10⟩
        ⟨1, 2, 11, 0, [(1000, UserField.str
          "\x7b\"p\":\"cns\",\"op\":\"trf\",\"cns\":\"alice\"\x7d".data)]⟩)
      "cns".data "alice".data).map CNSRecord.owner = some 2 := by
  refine ⟨by decide, by decide, by decide⟩

/-- C2 counterexample: apply the FOO deploy (block 1) and the 10-FOO mint
(block 2) from a fresh store; the mint's InscriptionMeta entry at `(2, 0)` is
then present and `totalMinted = 10`.  Re-applying block 2 — whose meta
entries all exist — doubles `totalMinted` and the minter's balance to 20,
so `apply_block` is not idempotent on a block whose meta entries are all
present. -/
theorem replay_mint_counterexample :
    (alookup (applyBlocks initState [exDeployBlock, exMintBlock]).meta (2, 0)).isSome = true ∧
    (getToken (applyBlocks initState [exDeployBlock, exMintBlock]) "FOO".data).map
      TokenState.totalMinted = some 10 ∧
    (getToken (update (applyBlocks initState [exDeployBlock, exMintBlock]) exMintBlock)
      "FOO".data).map TokenState.totalMinted = some 20 ∧
    getTokenBalance (update (applyBlocks initState [exDeployBlock, exMintBlock]) exMintBlock)
      6 "FOO".data = 20 := by
  refine ⟨by decide, by decide, by decide, by decide⟩

/-- C2 amended: `apply_block` never consults InscriptionMeta.  For a
transaction parsing to a token mint whose caps still pass, re-application
adds `amt` to `totalMinted` and to the minter's balance again, even when an
InscriptionMeta entry for `(h, idx)` is already present (the `_hmeta`
hypothesis is deliberately unused by the proof: the presence of the entry
changes nothing).  Replays of CNS `reg` and token deploys are no-ops by the
first-seen checks (proved as part of C6 and usable from `storeTokenDeploy`
directly). -/
theorem replay_mint_reapplies (s : OIState) (tx : Tx) (m : OrdinalMetadata)
    (json : OrdinalJsonParser.JsonObject) (t : TokenInscription) (st : TokenState)
    (hp : parseOrdinalFromTransaction tx = some m)
    (hty : m.type = OrdinalType.Token)
    (hj : OrdinalJsonParser.parse m.data = some json)
    (ht : parseTokenInscription json = some t)
    (_hmeta : (alookup s.meta (tx.poolSeq, tx.txIndex)).isSome = true)
    (hst : getToken s t.tick = some st)
    (h1 : t.amt ≤ st.limitPerMint)
    (h2 : st.totalMinted + t.amt ≤ st.maxSupply) :
    (getToken (applyTx s tx) t.tick).map TokenState.totalMinted =
      some (st.totalMinted + t.amt) ∧
    getTokenBalance (applyTx s tx) tx.source t.tick =
      getTokenBalance s tx.source t.tick + t.amt := by
  have happ : applyTx s tx = storeTokenMint
      { s with meta := ainsert s.meta (tx.poolSeq, tx.txIndex) m } t tx.source := by
    unfold applyTx
    rw [hp]
    show applyParsed { s with meta := ainsert s.meta (tx.poolSeq, tx.txIndex) m } tx m = _
    unfold applyParsed
    rw [hj]
    show applyParsedJson { s with meta := ainsert s.meta (tx.poolSeq, tx.txIndex) m }
      tx m.type json = _
    rw [hty]
    unfold applyParsedJson
    rw [ht]
  have hstS : getToken { s with meta := ainsert s.meta (tx.poolSeq, tx.txIndex) m } t.tick =
      some st := hst
  have hl1 : ¬ st.limitPerMint < t.amt := not_lt.mpr h1
  have hl2 : ¬ st.maxSupply < st.totalMinted + t.amt := not_lt.mpr h2
  have hred : storeTokenMint { s with meta := ainsert s.meta (tx.poolSeq, tx.txIndex) m }
      t tx.source =
      { s with
          tokens := ainsert s.tokens t.tick { st with totalMinted := st.totalMinted + t.amt }
          balances := ainsert s.balances (tx.source, t.tick) (getTokenBalance s tx.source t.tick + t.amt)
          meta := ainsert s.meta (tx.poolSeq, tx.txIndex) m } := by
    simp [storeTokenMint, hstS, hl1, hl2]
    rfl
  rw [happ, hred]
  constructor
  · show (alookup (ainsert s.tokens t.tick { st with totalMinted := st.totalMinted + t.amt })
      t.tick).map TokenState.totalMinted = _
    rw [alookup_ainsert_self]
    rfl
  · show (alookup (ainsert s.balances (tx.source, t.tick)
      (getTokenBalance s tx.source t.tick + t.amt)) (tx.source, t.tick)).getD 0 = _
    rw [alookup_ainsert_self]
    rfl

/-- C2 amended witness: the replayed 10-FOO mint at `(2, 0)` against a state
already holding its meta entry takes `totalMinted` from 10 to 20 and raises
the balance again. -/
theorem replay_mint_reapplies_witness :
    (getToken (applyTx exMintState exMintTx) "FOO".data).map TokenState.totalMinted =
      some 20 ∧
    getTokenBalance (applyTx exMintState exMintTx) 6 "FOO".data =
      getTokenBalance exMintState 6 "FOO".data + 10 :=
  replay_mint_reapplies exMintState exMintTx exMintMeta exMintJson
    ⟨"crc".data, "mint".data, "FOO".data, 10⟩ exFOO10
    (by decide) (by decide) (by decide) (by decide) (by decide) (by decide)
    (by decide) (by decide)

/-- C3 counterexample: `cns/alice` is registered (owner 1, registered at
`(10, 0)`), and the removed block 11 contains only the lowercase `trf`
inscription for `alice`.  After `onRemoveBlock` the record is gone — the
rollback does not leave updates/transfers uninverted, it deletes the record
outright. -/
theorem rollback_trf_counterexample :
    getCNSByName exCnsState "cns".data "alice".data = some ⟨"reg".data, [], 1, 10, 0⟩ ∧
    getCNSByName (onRemoveBlock exCnsState exTrfBlock) "cns".data "alice".data = none := by
  refine ⟨by decide, by decide⟩

/-- C3 amended: for every transaction of a removed block that parses as a CNS
inscription — whatever its op, including `upd` and `trf` — the rollback step
calls `removeCNS` and the persisted record for that `(namespace, name)` is
deleted (afterwards the lookup is `none`), rather than left unchanged. -/
theorem rollback_removes_any_cns (s : OIState) (tx : Tx) (m : OrdinalMetadata)
    (json : OrdinalJsonParser.JsonObject) (c : CNSInscription)
    (hp : parseOrdinalFromTransaction tx = some m)
    (hty : m.type = OrdinalType.CNS)
    (hj : OrdinalJsonParser.parse m.data = some json)
    (hc : parseCNSInscription json = some c) :
    getCNSByName (removeTx s tx) c.normalizedNamespace c.normalizedName = none := by
  have hrem : removeTx s tx = removeCNS s c.normalizedNamespace c.normalizedName := by
    unfold removeTx
    rw [hp]
    show (match OrdinalJsonParser.parse m.data with
      | none => s
      | some json => removeParsedJson s m.type json) = _
    rw [hj]
    show removeParsedJson s m.type json = _
    rw [hty]
    unfold removeParsedJson
    rw [hc]
  rw [hrem]
  exact alookup_aremove_self s.cns (c.normalizedNamespace, c.normalizedName)

/-- C3 amended witness: rolling back the block holding the `trf` of `alice`
deletes the `cns/alice` record. -/
theorem rollback_removes_any_cns_witness :
    getCNSByName (removeTx exCnsState ⟨1, 2, 11, 0, [(1000, UserField.str payloadTrf)]⟩)
      "cns".data "alice".data = none :=
  rollback_removes_any_cns exCnsState ⟨1, 2, 11, 0, [(1000, UserField.str payloadTrf)]⟩
    exTrfMeta exTrfJson exTrfCns (by decide) (by decide) (by decide) (by decide)

/-- C4 counterexample: a transaction whose field 1000 holds an *integer* and
whose field 999 holds a perfectly valid CNS payload is not parsed at all,
while the same payload under field 1000 parses — so a present-but-non-string
primary field does `not` fall through to the fallback list, contrary to the
claim. -/
theorem fallback_nonstring_counterexample :
    parseOrdinalFromTransaction
      ⟨1, 1, 7, 0, [(1000, UserField.int 5), (999, UserField.str payloadReg)]⟩ = none ∧
    (parseOrdinalFromTransaction
      ⟨1, 1, 7, 0, [(1000, UserField.str payloadReg)]⟩).isSome = true := by
  refine ⟨by decide, by decide⟩

theorem altLoop_first_match (fields : List (Nat × UserField)) :
    ∀ (ids1 : List Nat) (j : Nat) (ids2 : List Nat) (cur : Option UserField) (f : UserField),
    (∀ id ∈ ids1, ((alookup fields id).all fun g => !fieldLooksOrdinal g) = true) →
    alookup fields j = some f → fieldLooksOrdinal f = true →
    altLoop fields (ids1 ++ j :: ids2) cur = some f
  | [], j, ids2, cur, f => fun _ hj hf => by
    show altLoop fields (j :: ids2) cur = some f
    unfold altLoop
    rw [hj]
    show (if fieldLooksOrdinal f = true then some f else altLoop fields ids2 (some f)) = some f
    rw [if_pos hf]
  | id :: rest, j, ids2, cur, f => fun hfail hj hf => by
    have hstep := hfail id (List.mem_cons_self id rest)
    have hrest : ∀ i ∈ rest, ((alookup fields i).all fun g => !fieldLooksOrdinal g) = true :=
      fun i hi => hfail i (List.mem_cons_of_mem _ hi)
    show altLoop fields (id :: (rest ++ j :: ids2)) cur = some f
    cases hid : alookup fields id with
    | none =>
      unfold altLoop
      rw [hid]
      exact altLoop_first_match fields rest j ids2 none f hrest hj hf
    | some g =>
      have hg : fieldLooksOrdinal g = false := by
        rw [hid] at hstep
        simpa using hstep
      unfold altLoop
      rw [hid]
      show (if fieldLooksOrdinal g = true then some g
        else altLoop fields (rest ++ j :: ids2) (some g)) = some f
      rw [hg, if_neg (by decide : ¬ false = true)]
      exact altLoop_first_match fields rest j ids2 (some g) f hrest hj hf

/-- C4 amended: the fallback chain is consulted only when field 1000 is
*absent*.  (a) When field 1000 is present with a non-string value the parser
returns `none` without trying any fallback.  (b) When field 1000 is absent
the fallback ids are tried in the order 0, 1, 2, 5, 10, 100, 999, and the
first one holding a string that contains both quoted substrings `"p"` and
`"op"` is accepted: the transaction is parsed exactly as if that payload sat
in the primary field 1000.  Fields before the accepted one may be absent or
present with non-ordinal content (including non-string values); in
particular a valid CNS payload only under field 999 is parsed and applied
identically to the primary-field case. -/
theorem fallback_only_when_absent :
    (∀ (tx : Tx) (uf : UserField), alookup tx.userFields 1000 = some uf →
      (∀ str, uf ≠ UserField.str str) → parseOrdinalFromTransaction tx = none) ∧
    (∀ (tx : Tx) (ids1 : List Nat) (j : Nat) (ids2 : List Nat) (sdata : Str),
      kAlternateFieldIds = ids1 ++ j :: ids2 →
      alookup tx.userFields 1000 = none →
      (∀ id ∈ ids1, ((alookup tx.userFields id).all fun g => !fieldLooksOrdinal g) = true) →
      alookup tx.userFields j = some (UserField.str sdata) →
      fieldLooksOrdinal (UserField.str sdata) = true →
      parseOrdinalFromTransaction tx =
        parseOrdinalFromTransaction
          ⟨tx.source, tx.target, tx.poolSeq, tx.txIndex, [(1000, UserField.str sdata)]⟩) := by
  constructor
  · intro tx uf h1000 hns
    unfold parseOrdinalFromTransaction
    rw [h1000]
    cases uf with
    | str str => exact absurd rfl (hns str)
    | int n => rfl
    | bytes b => rfl
  · intro tx ids1 j ids2 sdata hids h1000 hfail hj hlook
    have haux : altLoop tx.userFields kAlternateFieldIds none = some (UserField.str sdata) := by
      rw [hids]
      exact altLoop_first_match tx.userFields ids1 j ids2 none (UserField.str sdata)
        hfail hj hlook
    unfold parseOrdinalFromTransaction
    rw [h1000, haux]
    rfl

/-- C4 amended witness: an integer-valued primary field yields `none`, and a
registration payload under field 999 parses exactly like the primary-field
case even though the earlier fallback field 0 is present with a non-ordinal
string. -/
theorem fallback_only_when_absent_witness :
    parseOrdinalFromTransaction ⟨1, 1, 7, 0, [(1000, UserField.int 5)]⟩ = none ∧
    parseOrdinalFromTransaction
      ⟨1, 1, 7, 0, [(0, UserField.str "hello".data), (999, UserField.str payloadReg)]⟩ =
      parseOrdinalFromTransaction ⟨1, 1, 7, 0, [(1000, UserField.str payloadReg)]⟩ :=
  ⟨fallback_only_when_absent.1 ⟨1, 1, 7, 0, [(1000, UserField.int 5)]⟩ (UserField.int 5)
      (by decide) (fun _ h => UserField.noConfusion h),
    fallback_only_when_absent.2
      ⟨1, 1, 7, 0, [(0, UserField.str "hello".data), (999, UserField.str payloadReg)]⟩
      [0, 1, 2, 5, 10, 100] 999 [] payloadReg
      (by decide) (by decide) (by decide) (by decide) (by decide)⟩

open OrdinalJsonParser in
theorem trimChars_sandwich (a b : Char) (u : Str) (ha : isTrimWs a = false)
    (hb : isTrimWs b = false) :
    trimChars (a :: (u ++ [b])) = a :: (u ++ [b]) := by
  unfold trimChars
  have h1 : List.dropWhile isTrimWs (a :: (u ++ [b])) = a :: (u ++ [b]) := by
    rw [List.dropWhile_cons, ha]
    simp
  rw [h1]
  have h2 : (a :: (u ++ [b])).reverse = b :: (u.reverse ++ [a]) := by
    simp
  rw [h2]
  have h3 : List.dropWhile isTrimWs (b :: (u.reverse ++ [a])) = b :: (u.reverse ++ [a]) := by
    rw [List.dropWhile_cons, hb]
    simp
  rw [h3]
  simp

open OrdinalJsonParser in
theorem unquote_wrap (u : Str) : unquote ('"' :: (u ++ ['"'])) = u := by
  have hc : 2 ≤ ('"' :: (u ++ ['"'])).length ∧ ('"' :: (u ++ ['"'])).head? = some '"' ∧
      ('"' :: (u ++ ['"'])).getLast? = some '"' := by
    refine ⟨by simp, rfl, ?_⟩
    show (('"' :: u) ++ ['"']).getLast? = some '"'
    exact List.getLast?_concat _
  unfold unquote
  rw [if_pos hc]
  show (u ++ ['"']).dropLast = u
  exact List.dropLast_concat

open OrdinalJsonParser in
theorem splitFirst_of_not_mem (d : Char) : ∀ (a b : Str), d ∉ a →
    splitFirst d (a ++ d :: b) = some (a, b)
  | [], b, _ => by
    show splitFirst d (d :: b) = _
    unfold splitFirst
    rw [if_pos rfl]
  | c :: rest, b, h => by
    have hc : ¬ c = d := fun hcd => h (List.mem_cons.mpr (Or.inl hcd.symm))
    show splitFirst d (c :: (rest ++ d :: b)) = _
    unfold splitFirst
    rw [if_neg hc,
      splitFirst_of_not_mem d rest b (fun hm => h (List.mem_cons.mpr (Or.inr hm)))]

open OrdinalJsonParser in
theorem okJsonStr_not_special (s : Str) (h : okJsonStr s = true) :
    ∀ c ∈ s, jsonSpecialChar c = false := by
  intro c hc
  unfold okJsonStr at h
  rw [Bool.and_eq_true, Bool.and_eq_true] at h
  have h1 := h.1.1
  rw [List.all_eq_true] at h1
  have h2 := h1 c hc
  simpa using h2

open OrdinalJsonParser in
theorem comma_notin_serializeItem (k v : Str) (hk : okJsonStr k = true)
    (hv : okJsonStr v = true) :
    ',' ∉ serializeItem (k, v) := by
  intro hm
  have hm' : ',' ∈ (('"' :: k) ++ ('"' :: ':' :: '"' :: v)) ++ ['"'] := hm
  rcases List.mem_append.mp hm' with h | h
  · rcases List.mem_append.mp h with h | h
    · rcases List.mem_cons.mp h with h | h
      · exact absurd h (by decide)
      · exact absurd (okJsonStr_not_special k hk ',' h) (by decide)
    · rcases List.mem_cons.mp h with h | h
      · exact absurd h (by decide)
      rcases List.mem_cons.mp h with h | h
      · exact absurd h (by decide)
      rcases List.mem_cons.mp h with h | h
      · exact absurd h (by decide)
      · exact absurd (okJsonStr_not_special v hv ',' h) (by decide)
  · exact absurd (List.mem_singleton.mp h) (by decide)

open OrdinalJsonParser in
theorem colon_notin_quoted (k : Str) (hk : okJsonStr k = true) :
    ':' ∉ ('"' :: k) ++ ['"'] := by
  intro hm
  rcases List.mem_append.mp hm with h | h
  · rcases List.mem_cons.mp h with h | h
    · exact absurd h (by decide)
    · exact absurd (okJsonStr_not_special k hk ':' h) (by decide)
  · exact absurd (List.mem_singleton.mp h) (by decide)

open OrdinalJsonParser in
theorem parseItem_serializeItem (acc : JsonObject) (k v : Str) (hkne : k ≠ [])
    (hk : okJsonStr k = true) (_hv : okJsonStr v = true) :
    parseItem acc (serializeItem (k, v)) = mapInsert acc k v := by
  have hassoc : serializeItem (k, v) =
      (('"' :: k) ++ ['"']) ++ ':' :: (('"' :: v) ++ ['"']) := by
    simp [serializeItem]
  have hsplit : splitFirst ':' (serializeItem (k, v)) =
      some ((('"' :: k) ++ ['"']), (('"' :: v) ++ ['"'])) := by
    rw [hassoc]
    exact splitFirst_of_not_mem ':' _ _ (colon_notin_quoted k hk)
  unfold parseItem
  rw [hsplit]
  show (if unquote (trimChars ('"' :: (k ++ ['"']))) = [] then acc
    else mapInsert acc (unquote (trimChars ('"' :: (k ++ ['"']))))
      (unquote (trimChars ('"' :: (v ++ ['"']))))) = mapInsert acc k v
  rw [trimChars_sandwich '"' '"' k (by decide) (by decide),
    trimChars_sandwich '"' '"' v (by decide) (by decide),
    unquote_wrap k, unquote_wrap v, if_neg hkne]

open OrdinalJsonParser in
theorem ltChars_asymm : ∀ (a b : Str), ltChars a b = true → ltChars b a = false
  | [], [] => by simp [ltChars]
  | [], _ :: _ => fun _ => by simp [ltChars]
  | _ :: _, [] => by simp [ltChars]
  | a :: as, b :: bs => fun h => by
    unfold ltChars at h ⊢
    by_cases hab : a < b
    · rw [if_neg (lt_asymm hab), if_pos hab]
    · rw [if_neg hab] at h
      by_cases hba : b < a
      · rw [if_pos hba] at h
        exact absurd h (by simp)
      · rw [if_neg hba] at h
        rw [if_neg hba, if_neg hab]
        exact ltChars_asymm as bs h

open OrdinalJsonParser in
theorem mapInsert_append (m : JsonObject) (k v : Str)
    (h : ∀ kv ∈ m, ltChars kv.1 k = true) :
    mapInsert m k v = m ++ [(k, v)] := by
  induction m with
  | nil => rfl
  | cons kv rest ih =>
    have hlt : ltChars kv.1 k = true := h kv (List.mem_cons_self kv rest)
    have h1 : ltChars k kv.1 = false := ltChars_asymm _ _ hlt
    show mapInsert ((kv.1, kv.2) :: rest) k v = _
    unfold mapInsert
    rw [h1, hlt]
    rw [if_neg (by decide : ¬ false = true), if_pos (by decide : true = true)]
    rw [ih fun kv' h' => h kv' (List.mem_cons_of_mem _ h')]
    rfl

open OrdinalJsonParser in
theorem getlineSplitAux_no_delim (d : Char) : ∀ (s acc : Str), d ∉ s →
    (acc ≠ [] ∨ s ≠ []) →
    getlineSplitAux d s acc = [acc.reverse ++ s]
  | [], acc, _, hne => by
    have hacc : acc ≠ [] := by
      rcases hne with h | h
      · exact h
      · exact absurd rfl h
    simp [getlineSplitAux, hacc]
  | c :: rest, acc, h, _ => by
    have hc : ¬ c = d := fun hcd => h (List.mem_cons.mpr (Or.inl hcd.symm))
    show (if c = d then acc.reverse :: getlineSplitAux d rest []
      else getlineSplitAux d rest (c :: acc)) = [acc.reverse ++ c :: rest]
    rw [if_neg hc, getlineSplitAux_no_delim d rest (c :: acc)
      (fun hm => h (List.mem_cons.mpr (Or.inr hm))) (Or.inl (by simp))]
    simp

open OrdinalJsonParser in
theorem getlineSplitAux_delim (d : Char) : ∀ (i r acc : Str), d ∉ i →
    getlineSplitAux d (i ++ d :: r) acc = (acc.reverse ++ i) :: getlineSplitAux d r []
  | [], r, acc, _ => by
    show (if d = d then acc.reverse :: getlineSplitAux d r []
      else getlineSplitAux d r (d :: acc)) = (acc.reverse ++ []) :: getlineSplitAux d r []
    rw [if_pos rfl, List.append_nil]
  | c :: rest, r, acc, h => by
    have hc : ¬ c = d := fun hcd => h (List.mem_cons.mpr (Or.inl hcd.symm))
    show (if c = d then acc.reverse :: getlineSplitAux d (rest ++ d :: r) []
      else getlineSplitAux d (rest ++ d :: r) (c :: acc)) =
      (acc.reverse ++ c :: rest) :: getlineSplitAux d r []
    rw [if_neg hc, getlineSplitAux_delim d rest r (c :: acc)
      (fun hm => h (List.mem_cons.mpr (Or.inr hm)))]
    simp

open OrdinalJsonParser in
theorem serializeItem_ne_nil (kv : Str × Str) : serializeItem kv ≠ [] := by
  simp [serializeItem]

open OrdinalJsonParser in
theorem getlineSplit_serializeItems : ∀ (m : JsonObject),
    (∀ kv ∈ m, okJsonStr kv.1 = true ∧ okJsonStr kv.2 = true) →
    getlineSplit ',' (serializeItems m) = m.map serializeItem
  | [], _ => rfl
  | [kv], h => by
    have hkv := h kv (List.mem_cons_self kv [])
    show getlineSplit ',' (serializeItem kv) = [serializeItem kv]
    unfold getlineSplit
    rw [getlineSplitAux_no_delim ',' (serializeItem kv) []
      (comma_notin_serializeItem kv.1 kv.2 hkv.1 hkv.2) (Or.inr (serializeItem_ne_nil kv))]
    rfl
  | kv :: kv2 :: rest, h => by
    have hkv := h kv (List.mem_cons_self kv (kv2 :: rest))
    have ih := getlineSplit_serializeItems (kv2 :: rest)
      (fun kv' h' => h kv' (List.mem_cons_of_mem _ h'))
    unfold getlineSplit at ih
    show getlineSplit ',' (serializeItem kv ++ ',' :: serializeItems (kv2 :: rest)) =
      serializeItem kv :: (kv2 :: rest).map serializeItem
    unfold getlineSplit
    rw [getlineSplitAux_delim ',' (serializeItem kv) (serializeItems (kv2 :: rest)) []
      (comma_notin_serializeItem kv.1 kv.2 hkv.1 hkv.2), ih]
    rfl

open OrdinalJsonParser in
theorem foldl_parseItem_serialize : ∀ (m acc : JsonObject),
    m.Pairwise (fun a b => ltChars a.1 b.1 = true) →
    (∀ kv ∈ m, kv.1 ≠ [] ∧ okJsonStr kv.1 = true ∧ okJsonStr kv.2 = true) →
    (∀ kv ∈ acc, ∀ kv2 ∈ m, ltChars kv.1 kv2.1 = true) →
    List.foldl parseItem acc (m.map serializeItem) = acc ++ m
  | [], acc, _, _, _ => by simp
  | kv :: rest, acc, hpw, hwf, hacc => by
    have hkv := hwf kv (List.mem_cons_self kv rest)
    obtain ⟨hhead, htail⟩ := List.pairwise_cons.mp hpw
    show List.foldl parseItem (parseItem acc (serializeItem kv)) (rest.map serializeItem) =
      acc ++ kv :: rest
    rw [show parseItem acc (serializeItem kv) = mapInsert acc kv.1 kv.2 from
      parseItem_serializeItem acc kv.1 kv.2 hkv.1 hkv.2.1 hkv.2.2]
    rw [mapInsert_append acc kv.1 kv.2
      (fun kv' h' => hacc kv' h' kv (List.mem_cons_self kv rest))]
    rw [foldl_parseItem_serialize rest (acc ++ [(kv.1, kv.2)]) htail
      (fun kv' h' => hwf kv' (List.mem_cons_of_mem _ h'))
      (fun kv' h' kv2 h2 => by
        rcases List.mem_append.mp h' with ha | hb
        · exact hacc kv' ha kv2 (List.mem_cons_of_mem _ h2)
        · have hkv' : kv' = (kv.1, kv.2) := by simpa using hb
          rw [hkv']
          exact hhead kv2 h2)]
    simp

open OrdinalJsonParser in
theorem parse_braced (u : Str)
    (hu : trimChars (lbrace :: (u ++ [rbrace])) = lbrace :: (u ++ [rbrace])) :
    parse (lbrace :: (u ++ [rbrace])) =
      some (List.foldl parseItem [] (getlineSplit ',' u)) := by
  unfold parse
  show (if trimChars (lbrace :: (u ++ [rbrace])) ≠ [] ∧
      (trimChars (lbrace :: (u ++ [rbrace]))).head? = some lbrace ∧
      (trimChars (lbrace :: (u ++ [rbrace]))).getLast? = some rbrace then
    some (List.foldl parseItem [] (getlineSplit ','
      (((trimChars (lbrace :: (u ++ [rbrace]))).drop 1).dropLast)))
    else none) = some (List.foldl parseItem [] (getlineSplit ',' u))
  rw [hu]
  have hcond : (lbrace :: (u ++ [rbrace])) ≠ [] ∧
      (lbrace :: (u ++ [rbrace])).head? = some lbrace ∧
      (lbrace :: (u ++ [rbrace])).getLast? = some rbrace := by
    refine ⟨by simp, rfl, ?_⟩
    show ((lbrace :: u) ++ [rbrace]).getLast? = some rbrace
    exact List.getLast?_concat _
  rw [if_pos hcond]
  have hcont : ((lbrace :: (u ++ [rbrace])).drop 1).dropLast = u := by
    show (u ++ [rbrace]).dropLast = u
    exact List.dropLast_concat
  rw [hcont]

/-- C10: for every flat string map whose keys are non-empty and whose keys
and values avoid the structural characters `{`, `}`, `,`, `:`, `"` and
leading/trailing whitespace (well-formedness also packages the sortedness
and key-uniqueness that the contents of a `std::map` have by construction),
`OrdinalJsonParser::parse` applied to `OrdinalJsonParser::serialize` returns
exactly the original map. -/
theorem parse_serialize_roundtrip (m : OrdinalJsonParser.JsonObject)
    (h : wfJsonObject m) :
    OrdinalJsonParser.parse (OrdinalJsonParser.serialize m) = some m := by
  obtain ⟨hpw, hwf⟩ := h
  show OrdinalJsonParser.parse
    (lbrace :: (OrdinalJsonParser.serializeItems m ++ [rbrace])) = some m
  rw [parse_braced (OrdinalJsonParser.serializeItems m)
    (trimChars_sandwich lbrace rbrace (OrdinalJsonParser.serializeItems m)
      (by decide) (by decide))]
  rw [getlineSplit_serializeItems m (fun kv hkv => ⟨(hwf kv hkv).2.1, (hwf kv hkv).2.2⟩)]
  rw [foldl_parseItem_serialize m [] hpw hwf (fun kv h' => absurd h' (List.not_mem_nil kv))]
  simp

/-- C10 witness: the two-entry map `op ↦ reg, p ↦ cns` is well-formed and
round-trips through `serialize` then `parse`. -/
theorem parse_serialize_roundtrip_witness :
    wfJsonObject [("op".data, "reg".data), ("p".data, "cns".data)] ∧
    OrdinalJsonParser.parse (OrdinalJsonParser.serialize
      [("op".data, "reg".data), ("p".data, "cns".data)]) =
      some [("op".data, "reg".data), ("p".data, "cns".data)] := by
  have hwf : wfJsonObject [("op".data, "reg".data), ("p".data, "cns".data)] := by
    constructor
    · exact List.pairwise_cons.mpr ⟨fun b hb => by
        rw [List.mem_singleton.mp hb]
        decide, List.pairwise_singleton _ _⟩
    · decide
  exact ⟨hwf, parse_serialize_roundtrip _ hwf⟩

end OrdinalSpec
